import Mathlib

/-!
Verification of the remote search/transfer engine of `src/main.py` (romPad).

Strings are modelled as `List Char`, byte counts and file sizes as `Nat`,
wall-clock times as integers (`ℤ`) where only comparisons matter.  Every definition is a shallow embedding of the
Python function named in its doc comment; line numbers refer to
`src/main.py`.
-/

namespace RomPad

/-- Python `s.rstrip("/")` as used at lines 354 and 366: drop every trailing
slash character. -/
def rstripSlash (s : List Char) : List Char :=
  (s.reverse.dropWhile (fun c => c == '/')).reverse

/-- `f"{top.rstrip('/')}/{name}"` — how `sftp_walk` (line 354) and
`search_remote` (line 366) build a child path from a directory path and an
entry name. -/
def pathJoin (top name : List Char) : List Char :=
  rstripSlash top ++ '/' :: name

/-! ## Download engine (`download_file`, lines 373-446) -/

/-- One result of `remote_f.read(block_size)` (line 411) together with the
`f.write` that follows it: a chunk of `n` bytes (`n = 0` models `not data`,
i.e. end of stream, line 412), or an exception raised by the read or the
write. -/
inductive ReadStep where
  | chunk (n : Nat)
  | fail
deriving DecidableEq

/-- The environment one call of `download_file` runs against.

* `statSize`    — `sftp.stat(remote_path).st_size` (line 385); `none` models
  `os.makedirs` or `stat` raising before the local file is created.
* `localOpenOk` — whether `open(local_path, "wb")` (line 386) succeeds.
* `remoteOpenOk`— whether `sftp.open(remote_path, "rb")` (line 386) succeeds
  (the local file already exists, empty, when this fails).
* `reads`       — the successive results of the block reads in the loop.
* `cancelAt`    — the instant at which the UI thread sets `stop_download`
  (`none` = never); the flag is monotone within one call because
  `download_file` itself clears it only in its prologue (line 376).
* `removeOk`    — whether `os.remove(local_path)` (lines 433 and 442)
  succeeds when the cleanup path calls it. -/
structure DlEnv where
  statSize : Option Nat
  localOpenOk : Bool
  remoteOpenOk : Bool
  reads : List ReadStep
  cancelAt : Option Nat
  removeOk : Bool
deriving DecidableEq

/-- The value of the shared `stop_download` flag at instant `t`, counting
instants from the prologue's `stop_download = False` (line 376). -/
def stopFlag (cp : Option Nat) (t : Nat) : Bool :=
  match cp with
  | none => false
  | some k => decide (k ≤ t)

/-- How the `while True` loop of lines 407-425 ended: normal end of stream
(`eof`, with the instant at which line 427 re-reads `stop_download`), the
cancellation break of lines 408-410 (`stopped`), or an I/O exception
(`ioErr`).  Each carries `read_bytes` as accumulated so far. -/
inductive LoopEnd where
  | eof (bytes : Nat) (t : Nat)
  | stopped (bytes : Nat)
  | ioErr (bytes : Nat) (t : Nat)
deriving DecidableEq

/-- `read_bytes` when the loop ended. -/
def LoopEnd.bytes : LoopEnd → Nat
  | .eof b _ => b
  | .stopped b => b
  | .ioErr b _ => b

/-- The download loop (lines 407-425): at each iteration first check
`stop_download` (line 408), then read one block (line 411); an empty block
breaks the loop (line 412), otherwise the block is written and counted
(lines 414-415).  `t` numbers the checks of the shared flag, `acc` is
`read_bytes`; an exhausted `reads` trace models the stream returning empty
data from then on. -/
def dlLoop (cp : Option Nat) : List ReadStep → Nat → Nat → LoopEnd
  | reads, t, acc =>
    if stopFlag cp t then .stopped acc
    else
      match reads with
      | [] => .eof acc (t + 1)
      | .fail :: _ => .ioErr acc (t + 1)
      | .chunk 0 :: _ => .eof acc (t + 1)
      | .chunk (n + 1) :: rest => dlLoop cp rest (t + 1) (acc + (n + 1))

/-- Total number of bytes the read stream can ever deliver. -/
def sumChunks : List ReadStep → Nat
  | [] => 0
  | .chunk n :: r => n + sumChunks r
  | .fail :: r => sumChunks r

/-- What is left at `local_path` after the cleanup of lines 431-436 (or
442-445) ran on a file of `bytes` bytes: the file is removed when
`os.remove` succeeds, and stays behind when the removal itself raises. -/
def cleanupFile (removeOk : Bool) (bytes : Nat) : Option Nat :=
  if removeOk then none else some bytes

/-- Everything observable about one call of `download_file`.

* `success`     — the value computed at line 427.
* `erred`       — whether an exception reached the `except` of line 437.
* `stopSeen`    — the value of `stop_download` at the final check.
* `bytesRead`   — `read_bytes` at the end.
* `localFile`   — `some n` iff a local file of `n` bytes exists afterwards.
* `removeCalled`/`removeFailed` — whether the cleanup invoked `os.remove`,
  and whether that call itself raised (lines 435-436, 444-445). -/
structure DlOutcome where
  success : Bool
  erred : Bool
  stopSeen : Bool
  bytesRead : Nat
  localFile : Option Nat
  removeCalled : Bool
  removeFailed : Bool
deriving DecidableEq

/-- `download_file` (lines 373-446), as a function of its environment.  The
prologue (lines 374-379) is modelled separately by `downloadPrologue`; here
the flag instants of `cancelAt` already count from after that reset. -/
def download_file (env : DlEnv) : DlOutcome :=
  match env.statSize with
  | none =>
    -- `os.makedirs` or `sftp.stat` raised: no local file was ever created,
    -- so the `except` branch finds nothing to remove (line 441).
    { success := false, erred := true, stopSeen := stopFlag env.cancelAt 0,
      bytesRead := 0, localFile := none, removeCalled := false, removeFailed := false }
  | some size =>
    if env.localOpenOk = false then
      { success := false, erred := true, stopSeen := stopFlag env.cancelAt 0,
        bytesRead := 0, localFile := none, removeCalled := false, removeFailed := false }
    else if env.remoteOpenOk = false then
      -- `open(local_path, "wb")` already created an empty file.
      { success := false, erred := true, stopSeen := stopFlag env.cancelAt 0,
        bytesRead := 0, localFile := cleanupFile env.removeOk 0,
        removeCalled := true, removeFailed := !env.removeOk }
    else
      match dlLoop env.cancelAt env.reads 0 0 with
      | .stopped b =>
        -- the loop broke at line 408; `stop_download` is still set at line
        -- 427, so `success` is false and the partial file is removed.
        { success := false, erred := false, stopSeen := true, bytesRead := b,
          localFile := cleanupFile env.removeOk b,
          removeCalled := true, removeFailed := !env.removeOk }
      | .ioErr b _ =>
        { success := false, erred := true, stopSeen := stopFlag env.cancelAt 0, bytesRead := b,
          localFile := cleanupFile env.removeOk b,
          removeCalled := true, removeFailed := !env.removeOk }
      | .eof b t =>
        let stop := stopFlag env.cancelAt t
        let succ := !stop && (decide (size = 0) || decide (size ≤ b))
        if succ then
          { success := true, erred := false, stopSeen := stop, bytesRead := b,
            localFile := some b, removeCalled := false, removeFailed := false }
        else
          { success := false, erred := false, stopSeen := stop, bytesRead := b,
            localFile := cleanupFile env.removeOk b,
            removeCalled := true, removeFailed := !env.removeOk }

/-- The module-level mutable state `download_file` touches (lines 160-165 of
the source). -/
structure Globals where
  downloading : Bool
  download_progress : ℚ
  download_speed : ℚ
  download_eta : ℚ
  stop_download : Bool
deriving DecidableEq

/-- Lines 374-379 of `download_file`: the unconditional prologue that runs
before the first read. -/
def downloadPrologue (g : Globals) : Globals :=
  { g with downloading := true, stop_download := false,
           download_progress := 0, download_speed := 0, download_eta := 0 }

/-- Unfolding equation of `dlLoop`. -/
theorem dlLoop_eq (cp : Option Nat) (reads : List ReadStep) (t acc : Nat) :
    dlLoop cp reads t acc =
      if stopFlag cp t then .stopped acc
      else
        match reads with
        | [] => .eof acc (t + 1)
        | .fail :: _ => .ioErr acc (t + 1)
        | .chunk 0 :: _ => .eof acc (t + 1)
        | .chunk (n + 1) :: rest => dlLoop cp rest (t + 1) (acc + (n + 1)) := by
  rw [dlLoop.eq_def]

/-- `read_bytes` never exceeds what the stream can deliver. -/
theorem dlLoop_bytes_le (cp : Option Nat) :
    ∀ (reads : List ReadStep) (t acc : Nat),
      (dlLoop cp reads t acc).bytes ≤ acc + sumChunks reads := by
  intro reads
  induction reads with
  | nil =>
    intro t acc
    rw [dlLoop_eq]
    by_cases h : stopFlag cp t = true <;>
      simp [h, LoopEnd.bytes, sumChunks]
  | cons r rest ih =>
    intro t acc
    rw [dlLoop_eq]
    by_cases h : stopFlag cp t = true
    · simp [h, LoopEnd.bytes]
    · cases r with
      | fail => simp [h, LoopEnd.bytes, sumChunks]
      | chunk n =>
        cases n with
        | zero => simp [h, LoopEnd.bytes, sumChunks]
        | succ m =>
          have := ih (t + 1) (acc + (m + 1))
          simp only [h, if_false, Bool.false_eq_true, sumChunks]
          omega

/-- Claim C10: every invocation of `download_file` begins (lines 374-379) by
unconditionally setting `downloading` and resetting `stop_download`,
`download_progress`, `download_speed` and `download_eta`, so a cancellation
requested before the worker runs its first statement is discarded: the
prologue's result does not depend on the incoming value of `stop_download`. -/
theorem download_prologue_resets (g : Globals) :
    (downloadPrologue g).stop_download = false ∧
    (downloadPrologue g).download_progress = 0 ∧
    (downloadPrologue g).download_speed = 0 ∧
    (downloadPrologue g).download_eta = 0 ∧
    (downloadPrologue g).downloading = true ∧
    downloadPrologue { g with stop_download := true } = downloadPrologue g := by
  simp [downloadPrologue]

/-- Claim C1 (counterexample to the claim as stated): with a remote stat size
of 1, a first read delivering the single byte and the second read raising,
and no cancellation ever requested, `download_file` reports failure although
the cancel flag was never set and `read_bytes ≥ size` — the biconditional
"success iff not cancelled and (size = 0 or bytesRead ≥ size)" is false,
because an I/O error also forces failure. -/
theorem download_success_policy_cex :
    ¬ (((download_file ⟨some 1, true, true, [.chunk 1, .fail], none, true⟩).success = true) ↔
        ((⟨some 1, true, true, [.chunk 1, .fail], none, true⟩ : DlEnv).cancelAt = none ∧
          (1 = 0 ∨ 1 ≤ (download_file ⟨some 1, true, true, [.chunk 1, .fail], none, true⟩).bytesRead))) := by
  decide

/-- Claim C1 (amended): a call of `download_file` reports success iff no
exception was raised, the cancel flag was unset at the final check of line
427, and the remote stat size is 0 or `read_bytes` reached it; every
non-success outcome leaves no file at the local path (given that the
cleanup `os.remove` itself succeeds — its failure is claim C2's caveat). -/
theorem download_success_policy (env : DlEnv) (size : Nat)
    (hs : env.statSize = some size) (hrm : env.removeOk = true) :
    ((download_file env).success = true ↔
      ((download_file env).erred = false ∧ (download_file env).stopSeen = false ∧
        (size = 0 ∨ size ≤ (download_file env).bytesRead))) ∧
    ((download_file env).success = false → (download_file env).localFile = none) := by
  obtain ⟨ss, lo, ro, rds, cp, rm⟩ := env
  cases ss with
  | none => simp [download_file] at hs ⊢
  | some sz =>
    have hsz : sz = size := by simpa using hs
    subst hsz
    have hrm' : rm = true := by simpa using hrm
    subst hrm'
    cases lo with
    | false => simp [download_file]
    | true =>
      cases ro with
      | false => simp [download_file, cleanupFile]
      | true =>
        rcases hle : dlLoop cp rds 0 0 with ⟨b, t2⟩ | b | ⟨b, t2⟩ <;>
          simp only [download_file, hle]
        · by_cases hstop : stopFlag cp t2 = true
          · simp [hstop, cleanupFile]
          · simp only [Bool.not_eq_true] at hstop
            by_cases hcond : sz = 0 ∨ sz ≤ b
            · simp [hstop, hcond]
            · simp [hstop, hcond, cleanupFile]
        · simp [cleanupFile]
        · simp [cleanupFile]

/-- Concrete environment used by the witnesses of C1 and C2: stat size 2, one
read of 2 bytes then a clean end of stream, no cancellation. -/
def envOk : DlEnv := ⟨some 2, true, true, [.chunk 2, .chunk 0], none, true⟩

/-- Witness for C1's theorem at `envOk`: its hypotheses hold there and the
amended completion policy follows. -/
theorem download_success_policy_witness :
    (envOk.statSize = some 2 ∧ envOk.removeOk = true) ∧
    (((download_file envOk).success = true ↔
      ((download_file envOk).erred = false ∧ (download_file envOk).stopSeen = false ∧
        (2 = 0 ∨ 2 ≤ (download_file envOk).bytesRead))) ∧
     ((download_file envOk).success = false → (download_file envOk).localFile = none)) :=
  ⟨⟨rfl, rfl⟩, download_success_policy envOk 2 rfl rfl⟩

/-- Claim C2: provided the remote stream can deliver at most the stat size
(`sumChunks env.reads ≤ size`, i.e. the remote file really has `size`
bytes), a successful `download_file` leaves a local file of exactly the stat
size; a non-successful one leaves no local file unless the cleanup deletion
itself failed; and whether the cleanup deletion succeeds never changes the
reported outcome. -/
theorem download_file_postcondition (env : DlEnv) (size : Nat)
    (hs : env.statSize = some size) (hwf : sumChunks env.reads ≤ size) :
    ((download_file env).success = true → (download_file env).localFile = some size) ∧
    ((download_file env).success = false →
      (download_file env).removeFailed = true ∨ (download_file env).localFile = none) ∧
    (∀ b : Bool, (download_file { env with removeOk := b }).success = (download_file env).success) := by
  obtain ⟨ss, lo, ro, rds, cp, rm⟩ := env
  cases ss with
  | none => simp [download_file] at hs ⊢
  | some sz =>
    have hsz : sz = size := by simpa using hs
    subst hsz
    have hb := dlLoop_bytes_le cp rds 0 0
    simp only at hwf
    cases lo with
    | false => simp [download_file]
    | true =>
      cases ro with
      | false =>
        cases rm <;> simp [download_file, cleanupFile]
      | true =>
        rcases hle : dlLoop cp rds 0 0 with ⟨b, t2⟩ | b | ⟨b, t2⟩ <;>
          simp only [download_file, hle] <;> rw [hle] at hb <;>
          simp only [LoopEnd.bytes] at hb
        · by_cases hstop : stopFlag cp t2 = true
          · cases rm <;> simp [hstop, cleanupFile]
          · simp only [Bool.not_eq_true] at hstop
            by_cases hcond : sz = 0 ∨ sz ≤ b
            · have hbz : b = sz := by
                rcases hcond with h0 | h1 <;> omega
              subst hbz
              cases rm <;> simp [hstop, hcond, cleanupFile]
            · cases rm <;> simp [hstop, hcond, cleanupFile]
        · cases rm <;> simp [cleanupFile]
        · cases rm <;> simp [cleanupFile]

/-- Witness for C2's theorem at `envOk`. -/
theorem download_file_postcondition_witness :
    (envOk.statSize = some 2 ∧ sumChunks envOk.reads ≤ 2) ∧
    (((download_file envOk).success = true → (download_file envOk).localFile = some 2) ∧
     ((download_file envOk).success = false →
       (download_file envOk).removeFailed = true ∨ (download_file envOk).localFile = none) ∧
     (∀ b : Bool, (download_file { envOk with removeOk := b }).success = (download_file envOk).success)) :=
  ⟨⟨rfl, by decide⟩, download_file_postcondition envOk 2 rfl (by decide)⟩

/-! ## Notification bus (lines 176-276) -/

/-- `notification_type` (line 177): `"error"`, `"info"` or `"success"`. -/
inductive NKind where
  | error
  | info
  | success
deriving DecidableEq

/-- The `Notification` class (lines 176-191).  `kind` models the Python
attribute `type` (a Lean keyword). -/
structure Notification where
  message : List Char
  kind : NKind
  createdAt : ℤ
  lifetime : ℤ
deriving DecidableEq

/-- `Notification.__init__` (lines 177-181): `created_at = time.time()` and
`lifetime = 10.0`. -/
def mkNotification (msg : List Char) (k : NKind) (now : ℤ) : Notification :=
  ⟨msg, k, now, 10⟩

/-- `Notification.is_expired` (lines 183-184) evaluated at time `now`. -/
def isExpired (n : Notification) (now : ℤ) : Bool :=
  decide (n.lifetime < now - n.createdAt)

/-- The shared `notifications` list; each entry is paired with a unique id
standing for Python object identity (the timer callback removes exactly the
object it closed over, line 209-210). -/
def show_notification (l : List (Nat × Notification)) (id : Nat)
    (msg : List Char) (k : NKind) (now : ℤ) : List (Nat × Notification) :=
  l ++ [(id, mkNotification msg k now)]

/-- `remove_notification` (lines 207-210): the timer callback removes the
notification it was armed for, if it is still on the list. -/
def remove_notification : List (Nat × Notification) → Nat → List (Nat × Notification)
  | [], _ => []
  | p :: rest, id => if p.1 = id then rest else p :: remove_notification rest id

/-- The entries whose `is_expired` is false at time `now`: what the drawing
loop of `draw_notifications` shows (line 226 skips expired ones) and what
the per-frame prune of line 276 keeps. -/
def activeNotifications (l : List (Nat × Notification)) (now : ℤ) :
    List (Nat × Notification) :=
  l.filter (fun p => !isExpired p.2 now)

/-- `draw_notifications` (lines 214-276) at time `now`: first the snapshot
actually drawn this frame, second the list the bus keeps afterwards. -/
def draw_notifications (l : List (Nat × Notification)) (now : ℤ) :
    List (Nat × Notification) × List (Nat × Notification) :=
  (activeNotifications l now, activeNotifications l now)

/-- An event on the notification bus: `show_notification` with its
`duration` argument (3 by default, line 196), the firing of the
`threading.Timer` it armed (line 212), or one frame of
`draw_notifications`. -/
inductive NEvent where
  | show (id : Nat) (msg : List Char) (kind : NKind) (dur : ℤ) (now : ℤ)
  | fire (id : Nat) (now : ℤ)
  | render (now : ℤ)

/-- Effect of one event on the shared list. -/
def stepNotifications (l : List (Nat × Notification)) : NEvent → List (Nat × Notification)
  | .show id msg k _dur now => show_notification l id msg k now
  | .fire id _now => remove_notification l id
  | .render now => (draw_notifications l now).2

/-- The list after a sequence of events, starting empty (line 193). -/
def runNotifications (evs : List NEvent) : List (Nat × Notification) :=
  evs.foldl stepNotifications []

/-- The wall-clock time of an event. -/
def evTime : NEvent → ℤ
  | .show _ _ _ _ now => now
  | .fire _ now => now
  | .render now => now

/-- Events happen in time order. -/
def chron : List NEvent → Bool
  | [] => true
  | [_] => true
  | a :: b :: r => decide (evTime a ≤ evTime b) && chron (b :: r)

/-- Every timer fires exactly `duration` seconds after the show that armed
it. -/
def firesOk : List NEvent → List (Nat × ℤ) → Bool
  | [], _ => true
  | .show id _ _ dur now :: r, acc => firesOk r ((id, now + dur) :: acc)
  | .fire id now :: r, acc => acc.contains (id, now) && firesOk r acc
  | .render _ :: r, acc => firesOk r acc

/-- A trace that a real run of the program could produce. -/
def ValidTrace (evs : List NEvent) : Bool :=
  chron evs && firesOk evs []

/-! ## Remote tree walk and search (lines 308-370) -/

/-- One entry of a remote directory listing, by its `st_mode` type bits: a
regular file (or anything that is neither a directory nor a symlink), a
symbolic link, a listable directory with its entries, or a directory whose
own `listdir_attr` raises (`sftp_walk` lines 333-337 then yields nothing
for it). -/
inductive RNode where
  | file
  | link
  | dir (entries : List (List Char × RNode))
  | errDir

instance : Inhabited RNode := ⟨.file⟩

/-- How lines 341-349 classify one entry: `S_ISLNK` first (skipped), then
`S_ISDIR`, else a file. -/
inductive EKind where
  | fileK
  | dirK
  | linkK
deriving DecidableEq

/-- The classification of a node's `st_mode`. -/
def classify : RNode → EKind
  | .link => .linkK
  | .dir _ => .dirK
  | .errDir => .dirK
  | .file => .fileK

/-- The `dirs` list of lines 339-348: names of entries classified as
directories, in listing order. -/
def dirNames (es : List (List Char × RNode)) : List (List Char) :=
  (es.filter (fun e => decide (classify e.2 = EKind.dirK))).map Prod.fst

/-- The `files` list of lines 339-349: names of entries classified as
files, in listing order. -/
def fileNames (es : List (List Char × RNode)) : List (List Char) :=
  (es.filter (fun e => decide (classify e.2 = EKind.fileK))).map Prod.fst

mutual

/-- `sftp_walk` (lines 332-355) rooted at path `top` over the tree `t`:
yields `(top, dirs, files)` then recurses into each directory child in
listing order.  Walking a file, a symlink, or a directory whose listing
fails yields nothing; recursing into every child is observably the same as
the source's recursion into `dirs` only, because non-directory children
contribute empty walks. -/
def sftp_walk : List Char → RNode → List (List Char × List (List Char) × List (List Char))
  | top, .dir es => (top, dirNames es, fileNames es) :: walkKids top es
  | _, _ => []

/-- The `for d in dirs: yield from sftp_walk(...)` loop of lines 353-355. -/
def walkKids : List Char → List (List Char × RNode) → List (List Char × List (List Char) × List (List Char))
  | _, [] => []
  | top, e :: rest => sftp_walk (pathJoin top e.1) e.2 ++ walkKids top rest

end

/-- Characters Python's default `str.strip()` removes (the common ones; the
source only ever strips user-typed queries). -/
def isSpaceChar (c : Char) : Bool :=
  c == ' ' || c == '\t' || c == '\n' || c == '\r'

/-- Python `s.strip()`. -/
def stripWS (s : List Char) : List Char :=
  ((s.dropWhile isSpaceChar).reverse.dropWhile isSpaceChar).reverse

/-- Python `s.lower()`, character by character. -/
def lowerL (s : List Char) : List Char :=
  s.map Char.toLower

/-- `q` is an initial run of `s`. -/
def leads : List Char → List Char → Bool
  | [], _ => true
  | _ :: _, [] => false
  | a :: q, b :: s => a == b && leads q s

/-- Python `q in s`: `q` occurs contiguously in `s`. -/
def occursIn (q : List Char) : List Char → Bool
  | [] => q.isEmpty
  | c :: rest => leads q (c :: rest) || occursIn q rest

/-- The inner `for fname in files` loop of `search_remote` (lines 364-369):
collect matching file paths, threading the running `count`; the third
component reports whether `count >= limit` returned early. -/
def searchFiles (q root : List Char) (limit : Nat) :
    List (List Char) → Nat → List (List Char) × Nat × Bool
  | [], c => ([], c, false)
  | f :: rest, c =>
    if occursIn q (lowerL f) then
      let p := pathJoin root f
      if limit ≤ c + 1 then ([p], c + 1, true)
      else
        let r := searchFiles q root limit rest (c + 1)
        (p :: r.1, r.2.1, r.2.2)
    else searchFiles q root limit rest c

/-- The outer `for root, _dirs, files in sftp_walk(...)` loop of lines
363-369. -/
def searchWalk (q : List Char) (limit : Nat) :
    List (List Char × List (List Char) × List (List Char)) → Nat → List (List Char)
  | [], _ => []
  | tr :: rest, c =>
    let r := searchFiles q tr.1 limit tr.2.2 c
    if r.2.2 then r.1 else r.1 ++ searchWalk q limit rest r.2.1

/-- `search_remote` (lines 357-370): strip and lowercase the query (line
358), return `[]` for a blank query (lines 360-361), else collect
case-insensitive file-name matches in walk order up to `limit` (the caller
passes 2000, the Python default). -/
def search_remote (t : RNode) (baseDir query : List Char) (limit : Nat) : List (List Char) :=
  let q := lowerL (stripWS query)
  if q.isEmpty then [] else searchWalk q limit (sftp_walk baseDir t) 0

/-- Every path `searchFiles` collects is a matching file of its list. -/
theorem searchFiles_mem (q root : List Char) (limit : Nat) :
    ∀ (fs : List (List Char)) (c : Nat) (p : List Char),
      p ∈ (searchFiles q root limit fs c).1 →
      ∃ f ∈ fs, p = pathJoin root f ∧ occursIn q (lowerL f) = true := by
  intro fs
  induction fs with
  | nil => intro c p h; simp [searchFiles] at h
  | cons f rest ih =>
    intro c p h
    by_cases hm : occursIn q (lowerL f) = true
    · by_cases hl : limit ≤ c + 1
      · simp [searchFiles, hm, hl] at h
        exact ⟨f, by simp, h, hm⟩
      · simp [searchFiles, hm, hl] at h
        rcases h with h | h
        · exact ⟨f, by simp, h, hm⟩
        · obtain ⟨g, hg, hp, ho⟩ := ih (c + 1) p h
          exact ⟨g, by simp [hg], hp, ho⟩
    · simp only [Bool.not_eq_true] at hm
      simp only [searchFiles, hm, Bool.false_eq_true, if_false] at h
      obtain ⟨g, hg, hp, ho⟩ := ih c p h
      exact ⟨g, by simp [hg], hp, ho⟩

/-- `count` bookkeeping of the inner loop: starting strictly below the
limit, the returned count is the old one plus the number of collected
paths, never exceeds the limit, and is still strictly below it unless the
loop returned early. -/
theorem searchFiles_count (q root : List Char) (limit : Nat) :
    ∀ (fs : List (List Char)) (c : Nat), c < limit →
      (searchFiles q root limit fs c).2.1 = c + (searchFiles q root limit fs c).1.length ∧
      (searchFiles q root limit fs c).2.1 ≤ limit ∧
      ((searchFiles q root limit fs c).2.2 = false →
        (searchFiles q root limit fs c).2.1 < limit) := by
  intro fs
  induction fs with
  | nil => intro c hc; simp [searchFiles]; omega
  | cons f rest ih =>
    intro c hc
    by_cases hm : occursIn q (lowerL f) = true
    · by_cases hl : limit ≤ c + 1
      · simp [searchFiles, hm, hl]; omega
      · have := ih (c + 1) (by omega)
        simp only [searchFiles, hm, if_true, hl, if_false]
        simp only [List.length_cons]
        refine ⟨by omega, by omega, fun h => ?_⟩
        exact this.2.2 h
    · simp only [Bool.not_eq_true] at hm
      simp only [searchFiles, hm, Bool.false_eq_true, if_false]
      exact ih c hc

/-- Every path `search_remote`'s outer loop collects comes from a file of a
walked triple and matches the query. -/
theorem searchWalk_mem (q : List Char) (limit : Nat) :
    ∀ (w : List (List Char × List (List Char) × List (List Char))) (c : Nat)
      (p : List Char), p ∈ searchWalk q limit w c →
      ∃ tr ∈ w, ∃ f ∈ tr.2.2, p = pathJoin tr.1 f ∧ occursIn q (lowerL f) = true := by
  intro w
  induction w with
  | nil => intro c p h; simp [searchWalk] at h
  | cons tr rest ih =>
    intro c p h
    simp only [searchWalk] at h
    by_cases hs : (searchFiles q tr.1 limit tr.2.2 c).2.2 = true
    · simp only [hs, if_true] at h
      obtain ⟨f, hf, hp, ho⟩ := searchFiles_mem q tr.1 limit tr.2.2 c p h
      exact ⟨tr, by simp, f, hf, hp, ho⟩
    · simp only [Bool.not_eq_true] at hs
      simp only [hs, Bool.false_eq_true, if_false, List.mem_append] at h
      rcases h with h | h
      · obtain ⟨f, hf, hp, ho⟩ := searchFiles_mem q tr.1 limit tr.2.2 c p h
        exact ⟨tr, by simp, f, hf, hp, ho⟩
      · obtain ⟨tr2, htr2, f, hf, hp, ho⟩ :=
          ih (searchFiles q tr.1 limit tr.2.2 c).2.1 p h
        exact ⟨tr2, by simp [htr2], f, hf, hp, ho⟩

/-- The outer loop collects at most `limit - c` further paths. -/
theorem searchWalk_len (q : List Char) (limit : Nat) :
    ∀ (w : List (List Char × List (List Char) × List (List Char))) (c : Nat),
      c < limit → c + (searchWalk q limit w c).length ≤ limit := by
  intro w
  induction w with
  | nil => intro c hc; simp [searchWalk]; omega
  | cons tr rest ih =>
    intro c hc
    have hcnt := searchFiles_count q tr.1 limit tr.2.2 c hc
    simp only [searchWalk]
    by_cases hs : (searchFiles q tr.1 limit tr.2.2 c).2.2 = true
    · simp only [hs, if_true]
      omega
    · simp only [Bool.not_eq_true] at hs
      have hlt := hcnt.2.2 hs
      have := ih (searchFiles q tr.1 limit tr.2.2 c).2.1 hlt
      simp only [hs, Bool.false_eq_true, if_false, List.length_append]
      omega

/-- Claim C3 (amended: the result bound needs a positive limit — with
`limit = 0` the code still returns the first match, see the
counterexample): for a positive limit, `search_remote` returns at most
`limit` paths; every returned path is built from a file name of the walk
that contains the stripped, lowercased query case-insensitively; and a
blank or whitespace-only query yields `[]` (by returning normally, not by
raising). -/
theorem search_remote_spec (t : RNode) (base query : List Char) (limit : Nat)
    (hl : 1 ≤ limit) :
    (search_remote t base query limit).length ≤ limit ∧
    (∀ p ∈ search_remote t base query limit,
      ∃ tr ∈ sftp_walk base t, ∃ f ∈ tr.2.2,
        p = pathJoin tr.1 f ∧ occursIn (lowerL (stripWS query)) (lowerL f) = true) ∧
    (stripWS query = [] → search_remote t base query limit = []) := by
  by_cases hq : (lowerL (stripWS query)).isEmpty = true
  · simp [search_remote, hq]
  · have h0 := searchWalk_len (lowerL (stripWS query)) limit (sftp_walk base t) 0
      (by omega)
    refine ⟨?_, ?_, ?_⟩
    · simpa [search_remote, hq] using h0
    · intro p hp
      rw [search_remote] at hp
      simp only [hq, Bool.false_eq_true, if_false] at hp
      exact searchWalk_mem _ limit _ 0 p hp
    · intro h
      exact absurd (by simp [lowerL, h]) hq

/-- The one-entry tree used by C3's counterexample and witness: base
directory holding the single file `a`. -/
def tA : RNode := .dir [([ 'a' ], .file)]

/-- Claim C3 (counterexample to the claim as stated): with `limit = 0` the
loop of lines 364-369 appends the first match before checking
`count >= limit`, so one path is returned and `len(results) ≤ limit`
fails. -/
theorem search_remote_limit_cex :
    ¬ ((search_remote tA [ '/', 'b' ] [ 'a' ] 0).length ≤ 0) := by
  decide

/-- Witness for C3's theorem: the tree `tA`, query `a`, and the source's
actual limit 2000. -/
theorem search_remote_spec_witness :
    (1 ≤ 2000) ∧
    ((search_remote tA [ '/', 'b' ] [ 'a' ] 2000).length ≤ 2000 ∧
     (∀ p ∈ search_remote tA [ '/', 'b' ] [ 'a' ] 2000,
       ∃ tr ∈ sftp_walk [ '/', 'b' ] tA, ∃ f ∈ tr.2.2,
         p = pathJoin tr.1 f ∧
           occursIn (lowerL (stripWS [ 'a' ])) (lowerL f) = true) ∧
     (stripWS [ 'a' ] = [] → search_remote tA [ '/', 'b' ] [ 'a' ] 2000 = [])) :=
  ⟨by decide, search_remote_spec tA [ '/', 'b' ] [ 'a' ] 2000 (by decide)⟩

/-! ## Well-formed remote trees

A real filesystem directory lists pairwise distinct entry names, each
non-empty and free of the path separator.  These are the facts the
uniqueness claims (C4, C7) rest on. -/

/-- A legal entry name: non-empty and without `/`. -/
def ValidName (n : List Char) : Bool :=
  !n.isEmpty && n.all (fun c => decide (c ≠ '/'))

mutual

/-- The tree only holds directories with distinct, valid entry names. -/
def WFb : RNode → Bool
  | .dir es =>
    decide ((es.map Prod.fst).Nodup) && (es.map Prod.fst).all ValidName && WFbList es
  | _ => true

/-- `WFb` on every child of an entry list. -/
def WFbList : List (List Char × RNode) → Bool
  | [] => true
  | e :: r => WFb e.2 && WFbList r

end

theorem WFbList_iff (es : List (List Char × RNode)) :
    WFbList es = true ↔ ∀ e ∈ es, WFb e.2 = true := by
  induction es with
  | nil => simp [WFbList]
  | cons e r ih => simp [WFbList, ih]

theorem WFb_dir {es : List (List Char × RNode)} (h : WFb (.dir es) = true) :
    (es.map Prod.fst).Nodup ∧ (∀ e ∈ es, ValidName e.1 = true) ∧
      ∀ e ∈ es, WFb e.2 = true := by
  simp only [WFb, Bool.and_eq_true, decide_eq_true_eq, List.all_eq_true] at h
  refine ⟨h.1.1, fun e he => ?_, (WFbList_iff es).mp h.2⟩
  exact h.1.2 e.1 (List.mem_map_of_mem Prod.fst he)

theorem validName_ne_nil {n : List Char} (h : ValidName n = true) : n ≠ [] := by
  simp only [ValidName, Bool.and_eq_true, Bool.not_eq_true', List.isEmpty_eq_false_iff_exists_mem] at h
  rcases h.1 with ⟨a, ha⟩
  intro hn
  rw [hn] at ha
  exact absurd ha (List.not_mem_nil a)

theorem validName_no_slash {n : List Char} (h : ValidName n = true) :
    ∀ c ∈ n, c ≠ '/' := by
  simp only [ValidName, Bool.and_eq_true, List.all_eq_true, decide_eq_true_eq] at h
  exact h.2

/-- Any string splits as its slash-stripped head plus trailing slashes. -/
theorem rstripSlash_split (s : List Char) :
    ∃ r, s = rstripSlash s ++ r ∧ ∀ c ∈ r, c = '/' := by
  refine ⟨(s.reverse.takeWhile (fun c => c == '/')).reverse, ?_, ?_⟩
  · conv_lhs => rw [← s.reverse_reverse, ← List.takeWhile_append_dropWhile
      (p := fun c => c == '/') (l := s.reverse)]
    rw [List.reverse_append, rstripSlash]
  · intro c hc
    rw [List.mem_reverse] at hc
    have := List.mem_takeWhile_imp hc
    simpa using this

/-- A string ending in a non-slash character is already stripped. -/
theorem rstripSlash_concat {c : Char} (s : List Char) (hc : c ≠ '/') :
    rstripSlash (s ++ [c]) = s ++ [c] := by
  rw [rstripSlash, List.reverse_append]
  simp only [List.reverse_cons, List.reverse_nil, List.nil_append, List.singleton_append]
  rw [List.dropWhile_cons_of_neg (by simpa using hc)]
  simp

/-- Appending `/name` to anything yields a stripped string, for a valid
name. -/
theorem rstripSlash_join {n : List Char} (x : List Char) (hn : ValidName n = true) :
    rstripSlash (x ++ '/' :: n) = x ++ '/' :: n := by
  have hne := validName_ne_nil hn
  have hlast : n.getLast hne ∈ n := List.getLast_mem hne
  have h1 : x ++ '/' :: n = (x ++ '/' :: n.dropLast) ++ [n.getLast hne] := by
    conv_lhs => rw [← List.dropLast_append_getLast hne]
    simp
  rw [h1, rstripSlash_concat _ (validName_no_slash hn _ hlast), ← h1]

/-- The tail of a path after its first segment: empty, or starting at a
separator. -/
def SlashHead (s : List Char) : Prop := s = [] ∨ ∃ r, s = '/' :: r

/-- Two slash-free segments followed by slash-headed tails agree as soon as
their concatenations agree: the first segment of a path is well defined. -/
theorem seg_eq :
    ∀ (d1 d2 s1 s2 : List Char), (∀ c ∈ d1, c ≠ '/') → (∀ c ∈ d2, c ≠ '/') →
      SlashHead s1 → SlashHead s2 → d1 ++ s1 = d2 ++ s2 → d1 = d2 ∧ s1 = s2 := by
  intro d1
  induction d1 with
  | nil =>
    intro d2 s1 s2 _ hd2 hs1 _ heq
    cases d2 with
    | nil => simpa using heq
    | cons c d2' =>
      exfalso
      rcases hs1 with h | ⟨r, h⟩ <;> subst h
      · simp at heq
      · simp only [List.nil_append, List.cons_append, List.cons.injEq] at heq
        exact hd2 c (by simp) heq.1.symm
  | cons a d1' ih =>
    intro d2 s1 s2 hd1 hd2 hs1 hs2 heq
    cases d2 with
    | nil =>
      exfalso
      rcases hs2 with h | ⟨r, h⟩ <;> subst h
      · simp at heq
      · simp only [List.nil_append, List.cons_append, List.cons.injEq] at heq
        exact hd1 a (by simp) heq.1
    | cons b d2' =>
      simp only [List.cons_append, List.cons.injEq] at heq
      obtain ⟨h1, h2⟩ := ih d2' s1 s2 (fun c hc => hd1 c (by simp [hc]))
        (fun c hc => hd2 c (by simp [hc])) hs1 hs2 heq.2
      exact ⟨by rw [heq.1, h1], h2⟩

/-- First segments of equal anchored paths agree. -/
theorem seg_clash {b n1 n2 s1 s2 : List Char}
    (h1 : ∀ c ∈ n1, c ≠ '/') (h2 : ∀ c ∈ n2, c ≠ '/')
    (hs1 : SlashHead s1) (hs2 : SlashHead s2)
    (heq : b ++ '/' :: (n1 ++ s1) = b ++ '/' :: (n2 ++ s2)) : n1 = n2 ∧ s1 = s2 := by
  have h := List.append_cancel_left heq
  simp only [List.cons.injEq, true_and] at h
  exact seg_eq n1 n2 s1 s2 h1 h2 hs1 hs2 h

/-- The directory paths a walk yields (first components of its triples). -/
def dirPaths (w : List (List Char × List (List Char) × List (List Char))) :
    List (List Char) :=
  w.map (fun tr => tr.1)

/-- The file paths of one walk triple, as `search_remote` builds them at
line 366. -/
def tripleFiles (tr : List Char × List (List Char) × List (List Char)) :
    List (List Char) :=
  tr.2.2.map (fun f => pathJoin tr.1 f)

/-- All file paths a walk yields, in walk order. -/
def allFilePaths : List (List Char × List (List Char) × List (List Char)) → List (List Char)
  | [] => []
  | tr :: w => tripleFiles tr ++ allFilePaths w

theorem allFilePaths_append (w1 w2 : List (List Char × List (List Char) × List (List Char))) :
    allFilePaths (w1 ++ w2) = allFilePaths w1 ++ allFilePaths w2 := by
  induction w1 with
  | nil => simp [allFilePaths]
  | cons tr w ih => simp [allFilePaths, ih]

theorem walkKids_cons (b : List Char) (e : List Char × RNode)
    (rest : List (List Char × RNode)) :
    walkKids b (e :: rest) = sftp_walk (pathJoin b e.1) e.2 ++ walkKids b rest := by
  rw [walkKids]

/-- Non-directory nodes yield no triples. -/
theorem sftp_walk_ne_dir {t : RNode} (b : List Char)
    (h : ∀ es, t ≠ RNode.dir es) : sftp_walk b t = [] := by
  cases t with
  | dir es => exact absurd rfl (h es)
  | file => simp [sftp_walk]
  | link => simp [sftp_walk]
  | errDir => simp [sftp_walk]

mutual

/-- Every path a walk rooted at a stripped base yields lies below that
base. -/
theorem walk_sub : ∀ (t : RNode) (b : List Char), rstripSlash b = b →
    WFb t = true →
    (∀ p ∈ dirPaths (sftp_walk b t), p = b ∨ ∃ s, p = b ++ '/' :: s) ∧
    (∀ p ∈ allFilePaths (sftp_walk b t), ∃ s, p = b ++ '/' :: s)
  | .file, b, _, _ => by simp [sftp_walk, dirPaths, allFilePaths]
  | .link, b, _, _ => by simp [sftp_walk, dirPaths, allFilePaths]
  | .errDir, b, _, _ => by simp [sftp_walk, dirPaths, allFilePaths]
  | .dir es, b, hcl, hwf => by
    obtain ⟨hnames, hvalid, hwfl⟩ := WFb_dir hwf
    obtain ⟨hd, hf⟩ := walkKids_sub es b hcl hvalid hwfl
    constructor
    · intro p hp
      rw [sftp_walk] at hp
      simp only [dirPaths, List.map_cons, List.mem_cons] at hp
      rcases hp with hp | hp
      · exact Or.inl hp
      · exact Or.inr (hd p hp)
    · intro p hp
      rw [sftp_walk] at hp
      simp only [allFilePaths, List.mem_append] at hp
      rcases hp with hp | hp
      · simp only [tripleFiles, List.mem_map] at hp
        obtain ⟨f, -, rfl⟩ := hp
        exact ⟨f, by rw [pathJoin, hcl]⟩
      · exact hf p hp

/-- List version of `walk_sub`, over the children of one directory. -/
theorem walkKids_sub : ∀ (es : List (List Char × RNode)) (b : List Char),
    rstripSlash b = b →
    (∀ e ∈ es, ValidName e.1 = true) → (∀ e ∈ es, WFb e.2 = true) →
    (∀ p ∈ dirPaths (walkKids b es), ∃ s, p = b ++ '/' :: s) ∧
    (∀ p ∈ allFilePaths (walkKids b es), ∃ s, p = b ++ '/' :: s)
  | [], b, _, _, _ => by simp [walkKids, dirPaths, allFilePaths]
  | e :: rest, b, hcl, hvn, hwfl => by
    have hbe : pathJoin b e.1 = b ++ '/' :: e.1 := by rw [pathJoin, hcl]
    have hbecl : rstripSlash (pathJoin b e.1) = pathJoin b e.1 := by
      rw [hbe]; exact rstripSlash_join b (hvn e (by simp))
    obtain ⟨hd1, hf1⟩ := walk_sub e.2 (pathJoin b e.1) hbecl (hwfl e (by simp))
    obtain ⟨hd2, hf2⟩ := walkKids_sub rest b hcl
      (fun x hx => hvn x (by simp [hx])) (fun x hx => hwfl x (by simp [hx]))
    rw [walkKids_cons]
    constructor
    · intro p hp
      simp only [dirPaths, List.map_append, List.mem_append] at hp
      rcases hp with hp | hp
      · rcases hd1 p hp with hp1 | ⟨s, hp1⟩
        · exact ⟨e.1, by rw [hp1, hbe]⟩
        · exact ⟨e.1 ++ '/' :: s, by rw [hp1, hbe]; simp⟩
      · exact hd2 p hp
    · intro p hp
      rw [allFilePaths_append] at hp
      rcases List.mem_append.mp hp with hp | hp
      · obtain ⟨s, hp1⟩ := hf1 p hp
        exact ⟨e.1 ++ '/' :: s, by rw [hp1, hbe]; simp⟩
      · exact hf2 p hp

end

/-- In a directory with distinct entry names, an entry is determined by its
name. -/
theorem entry_eq_of_name {es : List (List Char × RNode)}
    (h : (es.map Prod.fst).Nodup) :
    ∀ e1 ∈ es, ∀ e2 ∈ es, e1.1 = e2.1 → e1 = e2 := by
  induction es with
  | nil => simp
  | cons e r ih =>
    rw [List.map_cons, List.nodup_cons] at h
    intro e1 h1 e2 h2 heq
    rcases List.mem_cons.mp h1 with h1 | h1 <;> rcases List.mem_cons.mp h2 with h2 | h2
    · rw [h1, h2]
    · exfalso
      apply h.1
      rw [h1] at heq
      rw [heq]
      exact List.mem_map_of_mem Prod.fst h2
    · exfalso
      apply h.1
      rw [h2] at heq
      rw [← heq]
      exact List.mem_map_of_mem Prod.fst h1
    · exact ih h.2 e1 h1 e2 h2 heq

theorem mem_fileNames {es : List (List Char × RNode)} {n : List Char} :
    n ∈ fileNames es ↔ ∃ c, (n, c) ∈ es ∧ classify c = EKind.fileK := by
  simp only [fileNames, List.mem_map, List.mem_filter, decide_eq_true_eq]
  constructor
  · rintro ⟨⟨n1, c1⟩, ⟨he, hc⟩, rfl⟩
    exact ⟨c1, he, hc⟩
  · rintro ⟨c, hc, hcl⟩
    exact ⟨(n, c), ⟨hc, hcl⟩, rfl⟩

theorem mem_dirNames {es : List (List Char × RNode)} {n : List Char} :
    n ∈ dirNames es ↔ ∃ c, (n, c) ∈ es ∧ classify c = EKind.dirK := by
  simp only [dirNames, List.mem_map, List.mem_filter, decide_eq_true_eq]
  constructor
  · rintro ⟨⟨n1, c1⟩, ⟨he, hc⟩, rfl⟩
    exact ⟨c1, he, hc⟩
  · rintro ⟨c, hc, hcl⟩
    exact ⟨(n, c), ⟨hc, hcl⟩, rfl⟩

theorem fileNames_nodup {es : List (List Char × RNode)}
    (h : (es.map Prod.fst).Nodup) : (fileNames es).Nodup :=
  h.sublist ((List.filter_sublist es).map Prod.fst)

/-- A path contributed below some child `e` of a directory at base `b`:
anchored at `b/<name of e>` with a slash-headed tail, the child being a
listable directory. -/
def KidPath (b : List Char) (es : List (List Char × RNode)) (p : List Char) : Prop :=
  ∃ e ∈ es, ∃ s, SlashHead s ∧ p = rstripSlash b ++ '/' :: (e.1 ++ s) ∧
    ∃ es2, e.2 = RNode.dir es2

mutual

/-- Cycle safety and uniqueness: over a well-formed tree, a walk never
yields the same directory path twice, and never builds the same file path
twice. -/
theorem walk_nodup : ∀ (t : RNode) (b : List Char), WFb t = true →
    (dirPaths (sftp_walk b t)).Nodup ∧ (allFilePaths (sftp_walk b t)).Nodup
  | .file, b, _ => by simp [sftp_walk, dirPaths, allFilePaths]
  | .link, b, _ => by simp [sftp_walk, dirPaths, allFilePaths]
  | .errDir, b, _ => by simp [sftp_walk, dirPaths, allFilePaths]
  | .dir es, b, hwf => by
    obtain ⟨hnames, hvalid, hwfl⟩ := WFb_dir hwf
    obtain ⟨hkd, hkf, hsd, hsf⟩ := walkKids_nodup es b hvalid hwfl hnames
    rw [sftp_walk]
    constructor
    · simp only [dirPaths, List.map_cons]
      rw [List.nodup_cons]
      refine ⟨?_, hkd⟩
      intro hmem
      obtain ⟨e, he, s, hsh, hp, -⟩ := hsd b hmem
      obtain ⟨r, hr, hrall⟩ := rstripSlash_split b
      have hreq : r = '/' :: (e.1 ++ s) := List.append_cancel_left (hr.symm.trans hp)
      obtain ⟨c0, hc0⟩ := List.exists_mem_of_ne_nil e.1 (validName_ne_nil (hvalid e he))
      have hc0r : c0 ∈ r := by rw [hreq]; simp [hc0]
      exact validName_no_slash (hvalid e he) c0 hc0 (hrall c0 hc0r)
    · simp only [allFilePaths]
      rw [List.nodup_append]
      refine ⟨?_, hkf, ?_⟩
      · refine (fileNames_nodup hnames).map_on ?_
        intro x hx y hy hxy
        rw [pathJoin, pathJoin] at hxy
        have := List.append_cancel_left hxy
        simpa using this
      · intro p hp hp'
        simp only [tripleFiles, List.mem_map] at hp
        obtain ⟨f, hf, rfl⟩ := hp
        obtain ⟨cf, hcf, hclf⟩ := mem_fileNames.mp hf
        obtain ⟨e, he, s, hsh, heq, es2, he2⟩ := hsf _ hp'
        rw [pathJoin] at heq
        have heq2 : rstripSlash b ++ '/' :: (f ++ []) =
            rstripSlash b ++ '/' :: (e.1 ++ s) := by simpa using heq
        obtain ⟨hfe, -⟩ := seg_clash (validName_no_slash (hvalid (f, cf) hcf))
          (validName_no_slash (hvalid e he)) (Or.inl rfl) hsh heq2
        have hent : (f, cf) = e := entry_eq_of_name hnames (f, cf) hcf e he hfe
        rw [← hent] at he2
        have hcf2 : cf = RNode.dir es2 := he2
        rw [hcf2] at hclf
        simp [classify] at hclf

/-- List version of `walk_nodup`: the walks below the children of one
directory have pairwise distinct paths, each anchored at its own child's
name. -/
theorem walkKids_nodup : ∀ (es : List (List Char × RNode)) (b : List Char),
    (∀ e ∈ es, ValidName e.1 = true) → (∀ e ∈ es, WFb e.2 = true) →
    (es.map Prod.fst).Nodup →
    (dirPaths (walkKids b es)).Nodup ∧ (allFilePaths (walkKids b es)).Nodup ∧
    (∀ p ∈ dirPaths (walkKids b es), KidPath b es p) ∧
    (∀ p ∈ allFilePaths (walkKids b es), KidPath b es p)
  | [], b, _, _, _ => by simp [walkKids, dirPaths, allFilePaths]
  | e :: rest, b, hvn, hwfl, hnames => by
    have hvne : ValidName e.1 = true := hvn e (by simp)
    have hbe : pathJoin b e.1 = rstripSlash b ++ '/' :: e.1 := by rw [pathJoin]
    have hbecl : rstripSlash (pathJoin b e.1) = pathJoin b e.1 := by
      rw [hbe]; exact rstripSlash_join (rstripSlash b) hvne
    obtain ⟨hsubd, hsubf⟩ := walk_sub e.2 (pathJoin b e.1) hbecl (hwfl e (by simp))
    obtain ⟨hd1, hf1⟩ := walk_nodup e.2 (pathJoin b e.1) (hwfl e (by simp))
    rw [List.map_cons, List.nodup_cons] at hnames
    obtain ⟨hd2, hf2, hs2d, hs2f⟩ := walkKids_nodup rest b
      (fun x hx => hvn x (by simp [hx])) (fun x hx => hwfl x (by simp [hx])) hnames.2
    have hshape : ∀ p, (p ∈ dirPaths (sftp_walk (pathJoin b e.1) e.2) ∨
        p ∈ allFilePaths (sftp_walk (pathJoin b e.1) e.2)) →
        ∃ s, SlashHead s ∧ p = rstripSlash b ++ '/' :: (e.1 ++ s) ∧
          ∃ es2, e.2 = RNode.dir es2 := by
      intro p hp
      have hdir : ∃ es2, e.2 = RNode.dir es2 := by
        by_contra hne
        push_neg at hne
        rw [sftp_walk_ne_dir _ hne] at hp
        simp [dirPaths, allFilePaths] at hp
      rcases hp with hp | hp
      · rcases hsubd p hp with rfl | ⟨s, rfl⟩
        · exact ⟨[], Or.inl rfl, by rw [hbe]; simp, hdir⟩
        · exact ⟨'/' :: s, Or.inr ⟨s, rfl⟩, by rw [hbe]; simp, hdir⟩
      · obtain ⟨s, rfl⟩ := hsubf p hp
        exact ⟨'/' :: s, Or.inr ⟨s, rfl⟩, by rw [hbe]; simp, hdir⟩
    have hclash : ∀ p, (∃ s, SlashHead s ∧ p = rstripSlash b ++ '/' :: (e.1 ++ s)) →
        KidPath b rest p → False := by
      rintro p ⟨s, hsh, rfl⟩ ⟨e', he', s', hsh', heq, -⟩
      obtain ⟨hn, -⟩ := seg_clash (validName_no_slash hvne)
        (validName_no_slash (hvn e' (by simp [he']))) hsh hsh' heq
      apply hnames.1
      rw [hn]
      exact List.mem_map_of_mem Prod.fst he'
    have hweak : ∀ p, KidPath b rest p → KidPath b (e :: rest) p := by
      rintro p ⟨e', he', s', h1, h2, h3⟩
      exact ⟨e', by simp [he'], s', h1, h2, h3⟩
    rw [walkKids_cons]
    refine ⟨?_, ?_, ?_, ?_⟩
    · simp only [dirPaths, List.map_append]
      rw [List.nodup_append]
      refine ⟨hd1, hd2, ?_⟩
      intro p hp hp'
      obtain ⟨s, hsh, hps, -⟩ := hshape p (Or.inl hp)
      exact hclash p ⟨s, hsh, hps⟩ (hs2d p hp')
    · rw [allFilePaths_append, List.nodup_append]
      refine ⟨hf1, hf2, ?_⟩
      intro p hp hp'
      obtain ⟨s, hsh, hps, -⟩ := hshape p (Or.inr hp)
      exact hclash p ⟨s, hsh, hps⟩ (hs2f p hp')
    · intro p hp
      simp only [dirPaths, List.map_append, List.mem_append] at hp
      rcases hp with hp | hp
      · obtain ⟨s, hsh, hps, hdir⟩ := hshape p (Or.inl hp)
        exact ⟨e, by simp, s, hsh, hps, hdir⟩
      · exact hweak p (hs2d p hp)
    · intro p hp
      rw [allFilePaths_append] at hp
      rcases List.mem_append.mp hp with hp | hp
      · obtain ⟨s, hsh, hps, hdir⟩ := hshape p (Or.inr hp)
        exact ⟨e, by simp, s, hsh, hps, hdir⟩
      · exact hweak p (hs2f p hp)

end

/-- `Reach b t p c`: starting from the tree `t` rooted at path `b`, the node
`c` lies at path `p` (following directory entries, paths built exactly as
`sftp_walk` builds them at line 354). -/
inductive Reach : List Char → RNode → List Char → RNode → Prop where
  | here (b : List Char) (t : RNode) : Reach b t b t
  | child (b : List Char) (t : RNode) (p : List Char)
      (es : List (List Char × RNode)) (n : List Char) (c : RNode) :
      Reach b t p (.dir es) → (n, c) ∈ es → Reach b t (pathJoin p n) c

/-- `Reach` composes. -/
theorem Reach.extend {b : List Char} {t : RNode} {p : List Char} {c : RNode}
    (h1 : Reach b t p c) :
    ∀ {p' : List Char} {c' : RNode}, Reach p c p' c' → Reach b t p' c' := by
  intro p' c' h2
  induction h2 with
  | here => exact h1
  | child q es n cc hq hm ih => exact Reach.child b t q es n cc ih hm

mutual

/-- Every triple a walk yields is the faithful listing of a directory node
of the tree, at its path. -/
theorem walk_shape : ∀ (t : RNode) (b p : List Char) (ds fs : List (List Char)),
    (p, ds, fs) ∈ sftp_walk b t →
    ∃ es, Reach b t p (.dir es) ∧ ds = dirNames es ∧ fs = fileNames es
  | .file, b, p, ds, fs, h => by simp [sftp_walk] at h
  | .link, b, p, ds, fs, h => by simp [sftp_walk] at h
  | .errDir, b, p, ds, fs, h => by simp [sftp_walk] at h
  | .dir es, b, p, ds, fs, h => by
    rw [sftp_walk] at h
    rcases List.mem_cons.mp h with h | h
    · simp only [Prod.mk.injEq] at h
      refine ⟨es, ?_, h.2.1, h.2.2⟩
      rw [h.1]
      exact Reach.here b _
    · obtain ⟨e, he, es2, hr, hds, hfs⟩ := walkKids_shape es b p ds fs h
      refine ⟨es2, Reach.extend ?_ hr, hds, hfs⟩
      exact Reach.child b _ b es e.1 e.2 (Reach.here b _) (by simpa using he)

/-- Triples of the children's walks come from a child's subtree. -/
theorem walkKids_shape : ∀ (es : List (List Char × RNode)) (b p : List Char)
    (ds fs : List (List Char)), (p, ds, fs) ∈ walkKids b es →
    ∃ e ∈ es, ∃ es2, Reach (pathJoin b e.1) e.2 p (.dir es2) ∧
      ds = dirNames es2 ∧ fs = fileNames es2
  | [], b, p, ds, fs, h => by simp [walkKids] at h
  | e :: rest, b, p, ds, fs, h => by
    rw [walkKids_cons] at h
    rcases List.mem_append.mp h with h | h
    · obtain ⟨es2, hr, hds, hfs⟩ := walk_shape e.2 (pathJoin b e.1) p ds fs h
      exact ⟨e, by simp, es2, hr, hds, hfs⟩
    · obtain ⟨e', he', es2, hr, hds, hfs⟩ := walkKids_shape rest b p ds fs h
      exact ⟨e', by simp [he'], es2, hr, hds, hfs⟩

end

/-- Claim C4: over a well-formed remote tree, `sftp_walk` is the pre-order
traversal whose yielded triples each list one directory node of the tree
(`Reach` ties the triple to the node at that path): the `dirs`/`files`
components are exactly the names the entry-type partition of lines 339-349
produces — every name in them belongs to an entry classified `S_ISDIR`
resp. regular file, so an `S_ISLNK` entry never appears in either — and no
directory path is ever yielded twice.  Termination on cyclic link
structures is the totality of `sftp_walk` itself: links are never entered,
so the walk is structural on the tree of non-link entries. -/
theorem sftp_walk_spec (b : List Char) (t : RNode) (hwf : WFb t = true) :
    (dirPaths (sftp_walk b t)).Nodup ∧
    (∀ p ds fs, (p, ds, fs) ∈ sftp_walk b t →
      ∃ es, Reach b t p (.dir es) ∧ ds = dirNames es ∧ fs = fileNames es ∧
        (∀ n ∈ ds, ∃ c, (n, c) ∈ es ∧ classify c = EKind.dirK) ∧
        (∀ n ∈ fs, ∃ c, (n, c) ∈ es ∧ classify c = EKind.fileK)) := by
  refine ⟨(walk_nodup t b hwf).1, ?_⟩
  intro p ds fs h
  obtain ⟨es, hr, hds, hfs⟩ := walk_shape t b p ds fs h
  refine ⟨es, hr, hds, hfs, ?_, ?_⟩
  · intro n hn
    rw [hds] at hn
    exact mem_dirNames.mp hn
  · intro n hn
    rw [hfs] at hn
    exact mem_fileNames.mp hn

/-- A directory holding a symlink, a subdirectory and a file: C4's
witness tree. -/
def tC4 : RNode := .dir [([ 'l' ], .link), ([ 'd' ], .dir []), ([ 'f' ], .file)]

/-- Witness for C4's theorem: `tC4` is well-formed and the walk rooted at
`/r` yields pairwise distinct directory paths. -/
theorem sftp_walk_spec_witness :
    (WFb tC4 = true) ∧ (dirPaths (sftp_walk [ '/', 'r' ] tC4)).Nodup :=
  ⟨by decide, (sftp_walk_spec [ '/', 'r' ] tC4 (by decide)).1⟩

/-! ## ResultSet display labels (lines 1036-1038)

`display_items = [p.replace(remote_base + "/", "") for p in results]` and
`label_to_remote = {label: full for label, full in zip(display_items,
results)}`.  Python's `str.replace` removes **every** non-overlapping
occurrence of the pattern, scanning left to right. -/

/-- The replace-all scan, one character at a time: `skip` counts characters
of an already-matched occurrence still to swallow. -/
def raGo (pat : List Char) : List Char → Nat → List Char
  | [], _ => []
  | _ :: rest, skip + 1 => raGo pat rest skip
  | c :: rest, 0 =>
    if pat ≠ [] ∧ leads pat (c :: rest) = true then raGo pat rest (pat.length - 1)
    else c :: raGo pat rest 0

/-- Python `s.replace(pat, "")`: drop every non-overlapping occurrence of
`pat`, scanning left to right (for non-empty `pat`; the source always
passes `remote_base + "/"`). -/
def removeAll (pat s : List Char) : List Char :=
  raGo pat s 0

/-- The display label of one result path (line 1036). -/
def labelOf (baseDir p : List Char) : List Char :=
  removeAll (baseDir ++ [ '/' ]) p

/-- The whole display list as built at line 1036 (before `"< Back"` is
appended at line 1038). -/
def displayOf (baseDir : List Char) (results : List (List Char)) : List (List Char) :=
  results.map (labelOf baseDir)

/-- Lookup in a Python dict built from an association list: the **last**
binding of a key wins (line 1037). -/
def dictLookup : List (List Char × List Char) → List Char → Option (List Char)
  | [], _ => none
  | kv :: rest, k =>
    match dictLookup rest k with
    | some v => some v
    | none => if kv.1 = k then some kv.2 else none

theorem leads_append (q r : List Char) : leads q (q ++ r) = true := by
  induction q with
  | nil => rw [leads]
  | cons a q ih => simp [leads, ih]

/-- A scan that matches nowhere removes nothing. -/
theorem removeAll_no_occur (pat : List Char) :
    ∀ s : List Char, occursIn pat s = false → removeAll pat s = s := by
  intro s
  induction s with
  | nil => intro _; rfl
  | cons c rest ih =>
    intro h
    rw [occursIn, Bool.or_eq_false_iff] at h
    rw [removeAll, raGo, if_neg]
    · rw [show raGo pat rest 0 = removeAll pat rest from rfl, ih h.2]
    · rintro ⟨-, hl⟩
      rw [h.1] at hl
      exact Bool.false_ne_true hl

/-- Swallowing exactly the `x.length` pending characters of a match. -/
theorem raGo_skip (pat : List Char) :
    ∀ (x r : List Char), raGo pat (x ++ r) x.length = raGo pat r 0 := by
  intro x
  induction x with
  | nil => intro r; rfl
  | cons c x' ih =>
    intro r
    rw [List.cons_append, List.length_cons, raGo]
    exact ih r

/-- Removing a leading occurrence. -/
theorem removeAll_head (pat r : List Char) (hp : pat ≠ []) :
    removeAll pat (pat ++ r) = removeAll pat r := by
  cases pat with
  | nil => exact absurd rfl hp
  | cons a pat' =>
    rw [removeAll, removeAll, List.cons_append, raGo, if_pos]
    · have h1 : (a :: pat').length - 1 = pat'.length := by simp
      rw [h1]
      exact raGo_skip _ pat' r
    · exact ⟨by simp, by rw [← List.cons_append]; exact leads_append _ r⟩

/-- The label of a path that starts with `baseDir + "/"` and holds no
further occurrence of it is exactly the stripped remainder. -/
theorem labelOf_anchored {baseDir r : List Char}
    (h : occursIn (baseDir ++ [ '/' ]) r = false) :
    labelOf baseDir (baseDir ++ '/' :: r) = r := by
  have h1 : baseDir ++ '/' :: r = (baseDir ++ [ '/' ]) ++ r := by simp
  rw [labelOf, h1, removeAll_head _ _ (by simp), removeAll_no_occur _ _ h]

/-- A key bound nowhere in the association list looks up to `none`. -/
theorem dictLookup_not_mem :
    ∀ (l : List (List Char × List Char)) (key : List Char),
      key ∉ l.map Prod.fst → dictLookup l key = none := by
  intro l
  induction l with
  | nil => intro key _; rw [dictLookup]
  | cons kv rest ih =>
    intro key hk
    rw [dictLookup, ih key (by intro hx; exact hk (by simp [hx]))]
    rw [if_neg (by intro hx; exact hk (by simp [hx]))]

/-- With pairwise distinct keys, the dict maps each zipped key to its own
value. -/
theorem dictLookup_zip :
    ∀ (keys vals : List (List Char)), keys.Nodup →
      ∀ pr ∈ keys.zip vals, dictLookup (keys.zip vals) pr.1 = some pr.2 := by
  intro keys
  induction keys with
  | nil => intro vals _ pr hpr; simp at hpr
  | cons k ks ih =>
    intro vals hnd pr hpr
    cases vals with
    | nil => simp at hpr
    | cons v vs =>
      rw [List.nodup_cons] at hnd
      rw [List.zip_cons_cons] at hpr ⊢
      obtain ⟨p1, p2⟩ := pr
      rcases List.mem_cons.mp hpr with hpr | hpr
      · simp only [Prod.mk.injEq] at hpr
        obtain ⟨h1, h2⟩ := hpr
        subst h1
        subst h2
        have hnone : dictLookup (ks.zip vs) p1 = none := by
          apply dictLookup_not_mem
          intro hx
          rw [List.mem_map] at hx
          obtain ⟨pr2, hpr2, heq⟩ := hx
          exact hnd.1 (heq ▸ (List.of_mem_zip hpr2).1)
        rw [dictLookup]
        simp only [hnone]
        simp
      · have := ih vs hnd.2 (p1, p2) hpr
        simp only at this
        rw [dictLookup]
        simp only [this]

/-- A list led by `q` is `q` followed by the rest. -/
theorem leads_take : ∀ (q s : List Char), leads q s = true →
    s = q ++ s.drop q.length := by
  intro q
  induction q with
  | nil => intro s _; simp
  | cons a q ih =>
    intro s h
    cases s with
    | nil => simp [leads] at h
    | cons b s' =>
      rw [leads, Bool.and_eq_true] at h
      have hab : a = b := by simpa using h.1
      subst hab
      have h2 := ih s' h.2
      conv_lhs => rw [h2]
      simp

/-- The paths the inner search loop collects form a subsequence of that
triple's file paths. -/
theorem searchFiles_sublist (q root : List Char) (limit : Nat) :
    ∀ (fs : List (List Char)) (c : Nat),
      List.Sublist (searchFiles q root limit fs c).1
        (fs.map (fun f => pathJoin root f)) := by
  intro fs
  induction fs with
  | nil => intro c; simp [searchFiles]
  | cons f rest ih =>
    intro c
    by_cases hm : occursIn q (lowerL f) = true
    · by_cases hl : limit ≤ c + 1
      · simp only [searchFiles, hm, if_true, hl, List.map_cons]
        exact (List.nil_sublist _).cons₂ _
      · simp only [searchFiles, hm, if_true, hl, if_false, List.map_cons]
        exact (ih (c + 1)).cons₂ _
    · simp only [Bool.not_eq_true] at hm
      simp only [searchFiles, hm, Bool.false_eq_true, if_false, List.map_cons]
      exact (ih c).cons _

/-- The paths `search_remote` collects form a subsequence of all file paths
of the walk. -/
theorem searchWalk_sublist (q : List Char) (limit : Nat) :
    ∀ (w : List (List Char × List (List Char) × List (List Char))) (c : Nat),
      List.Sublist (searchWalk q limit w c) (allFilePaths w) := by
  intro w
  induction w with
  | nil => intro c; simp [searchWalk, allFilePaths]
  | cons tr rest ih =>
    intro c
    rw [searchWalk]
    by_cases hs : (searchFiles q tr.1 limit tr.2.2 c).2.2 = true
    · simp only [hs, if_true, allFilePaths]
      exact (searchFiles_sublist q tr.1 limit tr.2.2 c).trans
        (List.sublist_append_left _ _)
    · simp only [Bool.not_eq_true] at hs
      simp only [hs, Bool.false_eq_true, if_false, allFilePaths]
      exact (searchFiles_sublist q tr.1 limit tr.2.2 c).append (ih _)

/-- Over a well-formed tree, the result paths of one search are pairwise
distinct. -/
theorem search_remote_nodup (t : RNode) (base query : List Char) (limit : Nat)
    (hwf : WFb t = true) : (search_remote t base query limit).Nodup := by
  by_cases hq : (lowerL (stripWS query)).isEmpty = true
  · simp [search_remote, hq]
  · simp only [search_remote, hq, Bool.false_eq_true, if_false]
    exact ((walk_nodup t base hwf).2).sublist (searchWalk_sublist _ _ _ 0)

/-- Claim C7 (amended: the labels are only guaranteed distinct when the
pattern `baseDir + "/"` occurs in each result path solely as its leading
occurrence — Python's `replace` removes *every* occurrence, and a file
path that repeats the base-directory segment aliases another label, see
the counterexample): under that proviso, over a well-formed tree, the
display labels of a search's ResultSet are pairwise distinct, the result
paths are pairwise distinct, and the dict of line 1037 maps each label to
exactly its own remote path. -/
theorem resultset_labels_spec (t : RNode) (base query : List Char) (limit : Nat)
    (hwf : WFb t = true)
    (hanch : ∀ p ∈ search_remote t base query limit,
      leads (base ++ [ '/' ]) p = true ∧
        occursIn (base ++ [ '/' ]) (p.drop (base.length + 1)) = false) :
    (displayOf base (search_remote t base query limit)).Nodup ∧
    (search_remote t base query limit).Nodup ∧
    (∀ pr ∈ (displayOf base (search_remote t base query limit)).zip
        (search_remote t base query limit),
      dictLookup ((displayOf base (search_remote t base query limit)).zip
        (search_remote t base query limit)) pr.1 = some pr.2) := by
  have hnd : (search_remote t base query limit).Nodup :=
    search_remote_nodup t base query limit hwf
  have hshape : ∀ p ∈ search_remote t base query limit,
      p = base ++ '/' :: p.drop (base.length + 1) ∧
        labelOf base p = p.drop (base.length + 1) := by
    intro p hp
    obtain ⟨hl, ho⟩ := hanch p hp
    have hsplit := leads_take (base ++ [ '/' ]) p hl
    have hlen : (base ++ [ '/' ]).length = base.length + 1 := by simp
    rw [hlen] at hsplit
    have hp2 : p = base ++ '/' :: p.drop (base.length + 1) := by
      conv_lhs => rw [hsplit]
      simp [List.append_assoc]
    refine ⟨hp2, ?_⟩
    conv_lhs => rw [hp2]
    exact labelOf_anchored ho
  have hinj : ∀ x ∈ search_remote t base query limit,
      ∀ y ∈ search_remote t base query limit,
        labelOf base x = labelOf base y → x = y := by
    intro x hx y hy hxy
    obtain ⟨hx1, hx2⟩ := hshape x hx
    obtain ⟨hy1, hy2⟩ := hshape y hy
    rw [hx2, hy2] at hxy
    rw [hx1, hy1, hxy]
  refine ⟨hnd.map_on hinj, hnd, ?_⟩
  intro pr hpr
  exact dictLookup_zip _ _ (hnd.map_on hinj) pr hpr

/-- C7's counterexample tree below base `/r/p`: a file `xy`, and a chain of
directories `x/r/p` holding a file `y`.  The paths `/r/p/xy` and
`/r/p/x/r/p/y` both strip (replace-all) to the label `xy`. -/
def tC7 : RNode :=
  .dir [([ 'x' ], .dir [([ 'r' ], .dir [([ 'p' ], .dir [([ 'y' ], .file)])])]),
        ([ 'x', 'y' ], .file)]

/-- Claim C7 (counterexample to the claim as stated): searching `y` under
`/r/p` in `tC7` returns two distinct paths whose display labels coincide —
the labels of a ResultSet are not always pairwise distinct, so the
label-to-path mapping is not always a bijection. -/
theorem resultset_labels_cex :
    ¬ (displayOf [ '/', 'r', '/', 'p' ]
        (search_remote tC7 [ '/', 'r', '/', 'p' ] [ 'y' ] 2000)).Nodup := by
  decide

/-- Witness for C7's theorem: the one-file tree `tA` under base `/b`. -/
theorem resultset_labels_spec_witness :
    (WFb tA = true ∧
      ∀ p ∈ search_remote tA [ '/', 'b' ] [ 'a' ] 2000,
        leads ([ '/', 'b' ] ++ [ '/' ]) p = true ∧
          occursIn ([ '/', 'b' ] ++ [ '/' ])
            (p.drop (([ '/', 'b' ] : List Char).length + 1)) = false) ∧
    (displayOf [ '/', 'b' ] (search_remote tA [ '/', 'b' ] [ 'a' ] 2000)).Nodup :=
  ⟨⟨by decide, by decide⟩,
    (resultset_labels_spec tA [ '/', 'b' ] [ 'a' ] 2000 (by decide) (by decide)).1⟩

/-! ## Batch downloads (`search_and_download`, lines 1062-1098)

The `__MULTI_START__` branch: `total = len(selected_results)`, `i = 0`,
then `for label in [lbl for lbl in display_items if lbl in
selected_results]`, skipping `"< Back"` and labels without a remote
mapping, incrementing `i` and spawning one worker per remaining label,
breaking (and resetting `stop_download`) if cancellation was observed,
finally clearing the SelectionSet and multi-select flag (lines
1095-1097). -/

/-- The synthetic `"< Back"` entry (line 1038). -/
def backLabel : List Char := [ '<', ' ', 'B', 'a', 'c', 'k' ]

/-- One started transfer task, with the 1-based index and the total the
progress screen is given (`download_screen(..., index=i, total=total)`,
line 1085). -/
structure BTask where
  label : List Char
  remote : List Char
  idx : Nat
  total : Nat
deriving DecidableEq

/-- The environment of one batch run.

* `lookup`       — `label_to_remote.get` (line 1072).
* `startOk`      — whether the `os.makedirs` of line 1081 succeeds for the
  item at that position of the filtered list; on failure the `except` of
  line 1091 skips to the next item without incrementing `i` (the increment
  at line 1082 comes after it).
* `cancelDuring` — whether `stop_download` is set while the `i`-th started
  task runs (observed by the check at line 1087 after the task). -/
structure BatchCfg where
  lookup : List Char → Option (List Char)
  startOk : Nat → Bool
  cancelDuring : Nat → Bool

/-- The `for label in ...` loop of lines 1069-1093.  `pos` is the position
in the filtered list, `i` the started-task counter, `stop` the current
`stop_download`; returns the started tasks in order and the final
`stop_download` (reset to `False` at line 1089 when cancellation was
observed). -/
def batchLoop (cfg : BatchCfg) (total : Nat) :
    List (List Char) → Nat → Nat → Bool → List BTask × Bool
  | [], _, _, stop => ([], stop)
  | l :: rest, pos, i, stop =>
    if l = backLabel then batchLoop cfg total rest (pos + 1) i stop
    else
      match cfg.lookup l with
      | none => batchLoop cfg total rest (pos + 1) i stop
      | some r =>
        if cfg.startOk pos then
          -- the worker's prologue resets `stop_download` (line 376);
          -- `cancelDuring` is its value when line 1087 reads it back
          if cfg.cancelDuring (i + 1) then ([⟨l, r, i + 1, total⟩], false)
          else
            let res2 := batchLoop cfg total rest (pos + 1) (i + 1) false
            (⟨l, r, i + 1, total⟩ :: res2.1, res2.2)
        else batchLoop cfg total rest (pos + 1) i stop

/-- `[lbl for lbl in display_items if lbl in selected_results]`
(line 1069). -/
def selectedItems (display sel : List (List Char)) : List (List Char) :=
  display.filter (fun l => sel.contains l)

/-- One whole batch over the current display list and selection set
(`total = len(selected_results)`, line 1066). -/
def runBatch (display sel : List (List Char)) (cfg : BatchCfg) (stopIn : Bool) :
    List BTask × Bool :=
  batchLoop cfg sel.length (selectedItems display sel) 0 0 stopIn

/-- The globals the batch branch touches: `selected_results`,
`multi_select_enabled`, `stop_download`. -/
structure BatchState where
  selected_results : List (List Char)
  multi_select_enabled : Bool
  stop_download : Bool
deriving DecidableEq

/-- The `__MULTI_START__` branch end to end: run the batch, then
unconditionally clear the SelectionSet and turn multi-select off (lines
1095-1097).  Returns the new global state and the started tasks. -/
def search_and_download_batch (display : List (List Char)) (cfg : BatchCfg)
    (s : BatchState) : BatchState × List BTask :=
  let r := runBatch display s.selected_results cfg s.stop_download
  (⟨[], false, r.2⟩, r.1)

/-- The final `stop_download` of the loop: it keeps its incoming value
exactly when no worker was ever started. -/
theorem batchLoop_stop (cfg : BatchCfg) (total : Nat) :
    ∀ (items : List (List Char)) (pos i : Nat) (stop : Bool),
      (batchLoop cfg total items pos i stop).2 =
        (stop && (batchLoop cfg total items pos i stop).1.isEmpty) := by
  intro items
  induction items with
  | nil => intro pos i stop; cases stop <;> simp [batchLoop]
  | cons l rest ih =>
    intro pos i stop
    by_cases hb : l = backLabel
    · simp only [batchLoop, if_pos hb]
      exact ih (pos + 1) i stop
    · cases hlk : cfg.lookup l with
      | none =>
        simp only [batchLoop, if_neg hb, hlk]
        exact ih (pos + 1) i stop
      | some r =>
        by_cases hst : cfg.startOk pos = true
        · by_cases hcd : cfg.cancelDuring (i + 1) = true
          · simp [batchLoop, hb, hlk, hst, hcd]
          · simp only [Bool.not_eq_true] at hcd
            simp only [batchLoop, if_neg hb, hlk, hst, if_true, hcd,
              Bool.false_eq_true, if_false]
            rw [ih (pos + 1) (i + 1) false]
            simp
        · simp only [Bool.not_eq_true] at hst
          simp only [batchLoop, if_neg hb, hlk, hst, Bool.false_eq_true, if_false]
          exact ih (pos + 1) i stop

/-- Claim C6 (amended: the cancellation token is *not* unconditionally
unset — when it was already set before the batch and no worker was ever
started (every item failed to start), it keeps its value, see the
counterexample): after the batch branch ends the SelectionSet is empty and
multi-select is off, unconditionally; and the cancellation token is unset
whenever it was unset at batch start or at least one worker ran. -/
theorem batch_end_state (display : List (List Char)) (cfg : BatchCfg)
    (s : BatchState) :
    (search_and_download_batch display cfg s).1.selected_results = [] ∧
    (search_and_download_batch display cfg s).1.multi_select_enabled = false ∧
    (search_and_download_batch display cfg s).1.stop_download =
      (s.stop_download && (search_and_download_batch display cfg s).2.isEmpty) := by
  refine ⟨rfl, rfl, ?_⟩
  exact batchLoop_stop cfg _ _ 0 0 s.stop_download

/-- A batch environment where every task fails to start. -/
def cfgFail : BatchCfg := ⟨fun _ => some [ 'r' ], fun _ => false, fun _ => false⟩

/-- Claim C6 (counterexample to the claim as stated): with the token set
before the batch and the single selected item failing to start
(`os.makedirs` raising), the batch ends with the SelectionSet cleared and
multi-select off but `stop_download` still set — the token is not reset
regardless of outcome. -/
theorem batch_end_state_cex :
    ¬ ((search_and_download_batch [ [ 'a' ] ] cfgFail
        ⟨[ [ 'a' ] ], true, true⟩).1.stop_download = false) := by
  decide

/-- Index/label bookkeeping of the loop when every item starts and no
cancellation arrives. -/
theorem batchLoop_run (cfg : BatchCfg) (total : Nat)
    (hstart : ∀ pos, cfg.startOk pos = true)
    (hcancel : ∀ i, cfg.cancelDuring i = false) :
    ∀ (items : List (List Char)) (pos i : Nat),
      (∀ l ∈ items, l ≠ backLabel ∧ (cfg.lookup l).isSome = true) →
      (batchLoop cfg total items pos i false).1.map BTask.label = items ∧
      (∀ j, j < (batchLoop cfg total items pos i false).1.length →
        ((batchLoop cfg total items pos i false).1.getD j ⟨[], [], 0, 0⟩).idx = i + j + 1 ∧
        ((batchLoop cfg total items pos i false).1.getD j ⟨[], [], 0, 0⟩).total = total) := by
  intro items
  induction items with
  | nil => intro pos i _; simp [batchLoop]
  | cons l rest ih =>
    intro pos i hmem
    obtain ⟨hnb, hsome⟩ := hmem l (by simp)
    obtain ⟨r, hr⟩ := Option.isSome_iff_exists.mp hsome
    have hrec := ih (pos + 1) (i + 1) (fun x hx => hmem x (by simp [hx]))
    simp only [batchLoop, if_neg hnb, hr, hstart pos, if_true, hcancel (i + 1),
      Bool.false_eq_true, if_false]
    constructor
    · simp [hrec.1]
    · intro j hj
      cases j with
      | zero => simp
      | succ j' =>
        simp only [List.length_cons] at hj
        have h2 := hrec.2 j' (by omega)
        simp only [List.getD_cons_succ]
        refine ⟨?_, h2.2⟩
        rw [h2.1]
        omega

/-- Claim C5: with a non-empty selection drawn from the display list (never
the `"< Back"` entry), every display label mapped by the dict, every task
start succeeding and no cancellation during the batch, the batch processes
exactly the selected labels in display-list order (not selection order),
starts as many tasks as there are selected items, and reports for the
`j`-th task the 1-based index `j+1` together with the selection's total
count. -/
theorem batch_order_spec (display sel : List (List Char)) (cfg : BatchCfg)
    (hne : sel ≠ []) (hsel : sel.Nodup) (hdisp : display.Nodup)
    (hmem : ∀ l ∈ sel, l ∈ display ∧ l ≠ backLabel)
    (hlk : ∀ l ∈ display, l ≠ backLabel → (cfg.lookup l).isSome = true)
    (hstart : ∀ pos, cfg.startOk pos = true)
    (hcancel : ∀ i, cfg.cancelDuring i = false) :
    (runBatch display sel cfg false).1.map BTask.label = selectedItems display sel ∧
    (runBatch display sel cfg false).1.length = sel.length ∧
    (∀ j, j < (runBatch display sel cfg false).1.length →
      ((runBatch display sel cfg false).1.getD j ⟨[], [], 0, 0⟩).idx = j + 1 ∧
      ((runBatch display sel cfg false).1.getD j ⟨[], [], 0, 0⟩).total = sel.length) := by
  have hitems : ∀ l ∈ selectedItems display sel,
      l ≠ backLabel ∧ (cfg.lookup l).isSome = true := by
    intro l hl
    simp only [selectedItems, List.mem_filter] at hl
    have hsl : l ∈ sel := by simpa using hl.2
    exact ⟨(hmem l hsl).2, hlk l hl.1 (hmem l hsl).2⟩
  have hrun := batchLoop_run cfg sel.length hstart hcancel
    (selectedItems display sel) 0 0 hitems
  refine ⟨hrun.1, ?_, ?_⟩
  · have hlen1 : (runBatch display sel cfg false).1.length =
        (selectedItems display sel).length := by
      have := congrArg List.length hrun.1
      simpa using this
    have hperm : (selectedItems display sel).Perm sel := by
      apply (List.perm_ext_iff_of_nodup (hdisp.filter _) hsel).2
      intro a
      simp only [selectedItems, List.mem_filter]
      constructor
      · rintro ⟨-, ha⟩
        simpa using ha
      · intro ha
        exact ⟨(hmem a ha).1, by simpa using ha⟩
    rw [hlen1, hperm.length_eq]
  · intro j hj
    simp only [runBatch] at hj ⊢
    have h2 := hrun.2 j hj
    refine ⟨?_, h2.2⟩
    rw [h2.1]
    omega

/-- A batch environment where every label is mapped, every start succeeds
and nothing is cancelled. -/
def cfgOk : BatchCfg := ⟨fun l => some l, fun _ => true, fun _ => false⟩

/-- C5's witness display list, in ResultSet order `a, b`. -/
def dispW : List (List Char) := [ [ 'a' ], [ 'b' ] ]

/-- C5's witness selection, listed in click order `b, a`. -/
def selW : List (List Char) := [ [ 'b' ], [ 'a' ] ]

/-- Witness for C5's theorem: selecting `b` then `a` out of the display
list `a, b` downloads `a` then `b` — display order, not selection order. -/
theorem batch_order_spec_witness :
    (selW ≠ [] ∧ selW.Nodup ∧ dispW.Nodup ∧
      (∀ l ∈ selW, l ∈ dispW ∧ l ≠ backLabel) ∧
      (∀ l ∈ dispW, l ≠ backLabel → (cfgOk.lookup l).isSome = true) ∧
      (∀ pos, cfgOk.startOk pos = true) ∧ (∀ i, cfgOk.cancelDuring i = false)) ∧
    (runBatch dispW selW cfgOk false).1.map BTask.label = selectedItems dispW selW :=
  ⟨⟨by decide, by decide, by decide, by decide, by decide,
      fun _ => rfl, fun _ => rfl⟩,
    (batch_order_spec dispW selW cfgOk (by decide) (by decide) (by decide)
      (by decide) (by decide) (fun _ => rfl) (fun _ => rfl)).1⟩

/-! ## Notification claims -/

/-- Claim C8 (amended: a notification can also leave the bus *before* its
lifetime elapses — `show_notification` arms a `threading.Timer` that
removes it after its `duration` argument, 3 seconds by default, well below
the 10-second `lifetime`, see the counterexample): among the notifications
currently on the bus, one appears in the render snapshot iff the time
elapsed since its creation is at most its lifetime; the per-frame prune
keeps exactly those, so a notification is dropped automatically once its
elapsed time exceeds its lifetime. -/
theorem notification_snapshot_spec (l : List (Nat × Notification)) (now : ℤ) :
    (∀ p ∈ l, (p ∈ (draw_notifications l now).1 ↔
      now - p.2.createdAt ≤ p.2.lifetime)) ∧
    (∀ p ∈ (draw_notifications l now).2, p ∈ l ∧
      now - p.2.createdAt ≤ p.2.lifetime) ∧
    (∀ p ∈ l, now - p.2.createdAt ≤ p.2.lifetime →
      p ∈ (draw_notifications l now).2) := by
  refine ⟨?_, ?_, ?_⟩
  · intro p hp
    simp [draw_notifications, activeNotifications, List.mem_filter, isExpired,
      hp, not_lt]
  · intro p hp
    simp only [draw_notifications, activeNotifications, List.mem_filter,
      Bool.not_eq_true', isExpired, decide_eq_false_iff_not, not_lt] at hp
    exact hp
  · intro p hp hle
    simp only [draw_notifications, activeNotifications, List.mem_filter,
      Bool.not_eq_true', isExpired, decide_eq_false_iff_not, not_lt]
    exact ⟨hp, hle⟩

/-- The show event of C8's counterexample: a notification shown at time 0
with the default duration 3. -/
def cexShow : NEvent := .show 0 [] .info 3 0

/-- Its timer firing at time 3. -/
def cexFire : NEvent := .fire 0 3

/-- The full counterexample trace: show, timer fire, render at time 5. -/
def cexTrace : List NEvent := [cexShow, cexFire, .render 5]

/-- Claim C8 (counterexample to the claim as stated): on the valid trace
`cexTrace` the notification shown at time 0 is absent from the render
snapshot at time 5 although only 5 ≤ 10 seconds of its lifetime have
elapsed — its duration timer already removed it at time 3.  Presence in
the snapshot is not equivalent to `now - createdAt ≤ lifetime`. -/
theorem notification_snapshot_cex :
    ValidTrace cexTrace = true ∧
    ¬ (((0, mkNotification [] .info 0) ∈
        (draw_notifications (runNotifications [cexShow, cexFire]) 5).1) ↔
      ((5 : ℤ) - (mkNotification [] .info 0).createdAt ≤
        (mkNotification [] .info 0).lifetime)) := by
  constructor
  · decide
  · decide

end RomPad
